import Mathlib

/-!
# Verification of the simple-substitution cipher module

A shallow embedding of `src/simplesubstitution/Cipher.py` (mono-alphabetic
simple substitution ciphers).  Alphabets, keys and messages are `List Char`;
Python exceptions are made explicit through `Except PyError`.  The
definitions mirror the Python source function by function; the theorems at
the end settle the specification claims about them.
-/

/-- The kinds of Python exceptions the cipher module can raise:
`ValueError` (raised explicitly by the module and by `list.index`),
`ZeroDivisionError` (from `%` with a zero modulus) and `IndexError`
(from subscripting a list out of range). -/
inductive PyError where
  | valueError (msg : String)
  | zeroDivisionError
  | indexError
deriving DecidableEq, Repr

/-- Python `list.index(c)`: the index of the first occurrence of `c`,
or a `ValueError` when `c` does not occur. -/
def pyListIndex (l : List Char) (c : Char) : Except PyError Nat :=
  if c ∈ l then .ok (l.indexOf c) else .error (.valueError "x is not in list")

/-- Python `list.pop(i)` for a nonnegative index: returns the element at
index `i` together with the list with that element removed, or an
`IndexError` when `i` is out of range. -/
def pyPop (l : List Char) (i : Nat) : Except PyError (Char × List Char) :=
  match l.get? i with
  | some x => .ok (x, l.eraseIdx i)
  | none => .error .indexError

/-- The loop of `_generate_keyword_based_ciphertext_alphabet`: iterates over
the key characters, moving each one found in the working plaintext list to
the end of the accumulated ciphertext list; a `ValueError` from `index` is
caught and the character is silently skipped when it was already consumed
(i.e. is in the accumulated list), otherwise a `ValueError` naming the
character is raised.  Returns `ciphertext_list + plaintext_list`. -/
def genKeywordLoop : List Char → List Char → List Char → Except PyError (List Char)
  | plaintextList, ciphertextList, [] => .ok (ciphertextList ++ plaintextList)
  | plaintextList, ciphertextList, c :: rest =>
    match pyListIndex plaintextList c with
    | .ok position =>
      match pyPop plaintextList position with
      | .ok (x, remaining) => genKeywordLoop remaining (ciphertextList ++ [x]) rest
      | .error e => .error e
    | .error (.valueError _) =>
      if c ∈ ciphertextList then
        genKeywordLoop plaintextList ciphertextList rest
      else
        .error (.valueError
          ("Keyword contains character not contained in the alphabet: " ++ String.mk [c]))
    | .error e => .error e

/-- The function `_generate_keyword_based_ciphertext_alphabet(plaintext_alphabet, key)`. -/
def genKeywordAlphabet (plaintextAlphabet key : List Char) : Except PyError (List Char) :=
  genKeywordLoop plaintextAlphabet [] key

/-- The constant `string.ascii_lowercase`. -/
def asciiLowercase : List Char := "abcdefghijklmnopqrstuvwxyz".toList

/-- The constant `string.ascii_uppercase`. -/
def asciiUppercase : List Char := "ABCDEFGHIJKLMNOPQRSTUVWXYZ".toList

/-- The constant `string.ascii_letters` (lowercase followed by uppercase). -/
def asciiLetters : List Char := asciiLowercase ++ asciiUppercase

/-- The function `_generate_case_handled_ciphertext_alphabet(plaintext_alphabet, key)`:
when the plaintext alphabet is exactly `string.ascii_letters`, apply the
keyword reordering separately to the lowercase half (with the lowercased
key) and to the uppercase half (with the uppercased key) and concatenate;
otherwise apply the keyword reordering directly. -/
def genCaseHandledAlphabet (plaintextAlphabet key : List Char) : Except PyError (List Char) :=
  if plaintextAlphabet = asciiLetters then
    match genKeywordAlphabet asciiLowercase (key.map Char.toLower) with
    | .ok lowerHalf =>
      match genKeywordAlphabet asciiUppercase (key.map Char.toUpper) with
      | .ok upperHalf => .ok (lowerHalf ++ upperHalf)
      | .error e => .error e
    | .error e => .error e
  else
    genKeywordAlphabet plaintextAlphabet key

/-- The loop of `_generate_inverse`: for each character of the plaintext
alphabet (third argument), look up its position in the ciphertext alphabet
(`list.index`, whose `ValueError` is not caught) and emit the plaintext
character at that position (`IndexError` if out of range). -/
def genInverseLoop (plaintextList ciphertextList : List Char) :
    List Char → Except PyError (List Char)
  | [] => .ok []
  | c :: rest =>
    match pyListIndex ciphertextList c with
    | .ok position =>
      match plaintextList.get? position with
      | some x =>
        match genInverseLoop plaintextList ciphertextList rest with
        | .ok tail => .ok (x :: tail)
        | .error e => .error e
      | none => .error .indexError
    | .error e => .error e

/-- The function `_generate_inverse(plaintext_list, ciphertext_list)`. -/
def genInverse (plaintextList ciphertextList : List Char) : Except PyError (List Char) :=
  genInverseLoop plaintextList ciphertextList plaintextList

/-- The loop of `_apply_mapping`: each message character found in the source
alphabet is replaced by the destination character at the same position
(an out-of-range position is an uncaught `IndexError`); the `ValueError` of
a failed `index` is caught and the character passes through unchanged. -/
def applyMappingLoop (sourceList destinationList : List Char) :
    List Char → Except PyError (List Char)
  | [] => .ok []
  | c :: rest =>
    match pyListIndex sourceList c with
    | .ok position =>
      match destinationList.get? position with
      | some x =>
        match applyMappingLoop sourceList destinationList rest with
        | .ok tail => .ok (x :: tail)
        | .error e => .error e
      | none => .error .indexError
    | .error (.valueError _) =>
      match applyMappingLoop sourceList destinationList rest with
      | .ok tail => .ok (c :: tail)
      | .error e => .error e
    | .error e => .error e

/-- The function `_apply_mapping(message_str, source_list, destination_list)`. -/
def applyMapping (messageStr sourceList destinationList : List Char) :
    Except PyError (List Char) :=
  applyMappingLoop sourceList destinationList messageStr

/-- The function `_generate_shifted_alphabet(alphabet_string, shift_amount)`:
`shift_amount % len(alphabet_string)` (Python percent, i.e. `Int.emod`, which
lands in `[0, len)` for a positive length and raises `ZeroDivisionError` on
length zero), then `alphabet[amount:] + alphabet[:amount]`. -/
def genShiftedAlphabet (alphabetString : List Char) (shiftAmount : Int) :
    Except PyError (List Char) :=
  if alphabetString.length = 0 then
    .error .zeroDivisionError
  else
    let amount := (shiftAmount % (alphabetString.length : Int)).toNat
    .ok (alphabetString.drop amount ++ alphabetString.take amount)

/-- The constant `PRINTABLE_ASCII_ALPHABET`: tab followed by the characters with code
points 32 to 126. -/
def printableAsciiAlphabet : List Char :=
  '\t' :: (List.range' 32 95).map Char.ofNat

/-- The state of a constructed `Cipher` object: the plaintext alphabet,
the ciphertext alphabet and the cached inverse alphabet. -/
structure Cipher where
  plaintextList : List Char
  ciphertextList : List Char
  inverseList : List Char
deriving DecidableEq, Repr

/-- The constructor `Cipher.__init__(ciphertext_alphabet, plaintext_alphabet)`: raises
`ValueError` when the lengths differ, then `ValueError` when the two
alphabets are not equal as sets, then computes and caches the inverse. -/
def Cipher.make (ciphertextAlphabet plaintextAlphabet : List Char) : Except PyError Cipher :=
  if plaintextAlphabet.length ≠ ciphertextAlphabet.length then
    .error (.valueError "The plaintext and ciphertext have different character counts.")
  else if plaintextAlphabet.toFinset ≠ ciphertextAlphabet.toFinset then
    .error (.valueError "The plaintext and the ciphertext are not the same set of characters.")
  else
    match genInverse plaintextAlphabet ciphertextAlphabet with
    | .ok inv => .ok ⟨plaintextAlphabet, ciphertextAlphabet, inv⟩
    | .error e => .error e

/-- The method `Cipher.encrypt(message_string)`. -/
def Cipher.encrypt (c : Cipher) (messageString : List Char) : Except PyError (List Char) :=
  applyMapping messageString c.plaintextList c.ciphertextList

/-- The method `Cipher.decrypt(message_string)`. -/
def Cipher.decrypt (c : Cipher) (messageString : List Char) : Except PyError (List Char) :=
  applyMapping messageString c.plaintextList c.inverseList

/-- The constructor `KeyedCipher.__init__(key, plaintext_alphabet)`: `none` stands for the
omitted alphabet argument, defaulted to `PRINTABLE_ASCII_ALPHABET`; an empty
key raises `ValueError`; otherwise the case-handled keyword alphabet is fed
to the `Cipher` constructor. -/
def KeyedCipher.make (key : List Char) (plaintextAlphabet : Option (List Char)) :
    Except PyError Cipher :=
  let pa := plaintextAlphabet.getD printableAsciiAlphabet
  if key.length = 0 then
    .error (.valueError "The keyword has to be a non-null string.")
  else
    match genCaseHandledAlphabet pa key with
    | .ok ciphertextAlphabet => Cipher.make ciphertextAlphabet pa
    | .error e => .error e

/-- The constructor `ShiftedCipher.__init__(shift_amount, plaintext_alphabet)`. -/
def ShiftedCipher.make (shiftAmount : Int) (plaintextAlphabet : Option (List Char)) :
    Except PyError Cipher :=
  let pa := plaintextAlphabet.getD printableAsciiAlphabet
  match genShiftedAlphabet pa shiftAmount with
  | .ok ciphertextAlphabet => Cipher.make ciphertextAlphabet pa
  | .error e => .error e

/-- The function `get_combined_cipher(key, shift_amount, plaintext_alphabet, shift_first)`. -/
def getCombinedCipher (key : List Char) (shiftAmount : Int)
    (plaintextAlphabet : Option (List Char)) (shiftFirst : Bool) : Except PyError Cipher :=
  let pa := plaintextAlphabet.getD printableAsciiAlphabet
  if shiftFirst then
    match genShiftedAlphabet pa shiftAmount with
    | .ok shifted => KeyedCipher.make key (some shifted)
    | .error e => .error e
  else
    match genCaseHandledAlphabet pa key with
    | .ok keyed => ShiftedCipher.make shiftAmount (some keyed)
    | .error e => .error e

/-- Whether a Python result is a failure with a `ValueError`
(the InvalidArgument kind of the spec). -/
def isInvalidArg {α : Type} : Except PyError α → Bool
  | .error (.valueError _) => true
  | _ => false

/-- The pure per-character substitution both `encrypt` and `decrypt` reduce
to: the destination character at the source position of `c`, or `c` itself
when `c` is not in the source alphabet. -/
def subChar (sourceList destinationList : List Char) (c : Char) : Char :=
  if c ∈ sourceList then destinationList.getD (sourceList.indexOf c) c else c

/-- Spec-side reference for `reorder_by_key`, written from the words of
spec section 4.1: for each key character, in order, if it is still present
in the working copy, remove its first occurrence and append it to the
result; a character already consumed (i.e. present in the original
alphabet but no longer in the working copy) is silently skipped; a key
character absent from the alphabet from the start fails with a
`ValueError` identifying it; finally the unconsumed characters are
appended in their original order. -/
def reorderByKeySpecLoop (alphabet : List Char) :
    List Char → List Char → List Char → Except PyError (List Char)
  | working, result, [] => .ok (result ++ working)
  | working, result, c :: rest =>
    if c ∈ working then
      reorderByKeySpecLoop alphabet (working.erase c) (result ++ [c]) rest
    else if c ∈ alphabet then
      reorderByKeySpecLoop alphabet working result rest
    else
      .error (.valueError
        ("Keyword contains character not contained in the alphabet: " ++ String.mk [c]))

/-- Spec-side `reorder_by_key(alphabet, key)` built on the reference loop. -/
def reorderByKeySpec (alphabet key : List Char) : Except PyError (List Char) :=
  reorderByKeySpecLoop alphabet alphabet [] key

/-! ## Supporting lemmas -/

lemma pyListIndex_of_mem {l : List Char} {c : Char} (h : c ∈ l) :
    pyListIndex l c = .ok (l.indexOf c) := by
  simp [pyListIndex, h]

lemma pyListIndex_of_not_mem {l : List Char} {c : Char} (h : c ∉ l) :
    pyListIndex l c = .error (.valueError "x is not in list") := by
  simp [pyListIndex, h]

lemma subChar_of_mem {src dst : List Char} {c : Char} (h : c ∈ src)
    (hlt : src.indexOf c < dst.length) :
    subChar src dst c = dst.get ⟨src.indexOf c, hlt⟩ := by
  simp [subChar, h, List.getD_eq_getElem?_getD, List.getElem?_eq_getElem hlt,
    List.get_eq_getElem]

lemma subChar_of_not_mem {src dst : List Char} {c : Char} (h : c ∉ src) :
    subChar src dst c = c := by
  simp [subChar, h]

lemma applyMappingLoop_eq_map {src dst : List Char} (h : src.length ≤ dst.length) :
    ∀ msg : List Char, applyMappingLoop src dst msg = .ok (msg.map (subChar src dst))
  | [] => by simp [applyMappingLoop]
  | c :: rest => by
    by_cases hc : c ∈ src
    · have hlt : src.indexOf c < src.length := List.indexOf_lt_length.mpr hc
      have hlt' : src.indexOf c < dst.length := lt_of_lt_of_le hlt h
      simp only [applyMappingLoop, pyListIndex_of_mem hc,
        List.get?_eq_get hlt', applyMappingLoop_eq_map h rest, List.map_cons]
      rw [subChar_of_mem hc hlt']
    · simp only [applyMappingLoop, pyListIndex_of_not_mem hc,
        applyMappingLoop_eq_map h rest, List.map_cons]
      rw [subChar_of_not_mem hc]

lemma genInverseLoop_eq_map {pt ct : List Char} (hlen : ct.length ≤ pt.length) :
    ∀ l : List Char, (∀ x ∈ l, x ∈ ct) →
      genInverseLoop pt ct l = .ok (l.map (subChar ct pt))
  | [], _ => by simp [genInverseLoop]
  | c :: rest, hmem => by
    have hc : c ∈ ct := hmem c (List.mem_cons_self c rest)
    have hlt : ct.indexOf c < ct.length := List.indexOf_lt_length.mpr hc
    have hlt' : ct.indexOf c < pt.length := lt_of_lt_of_le hlt hlen
    have hrest : ∀ x ∈ rest, x ∈ ct := fun x hx => hmem x (List.mem_cons_of_mem c hx)
    simp only [genInverseLoop, pyListIndex_of_mem hc, List.get?_eq_get hlt',
      genInverseLoop_eq_map hlen rest hrest, List.map_cons]
    rw [subChar_of_mem hc hlt']

lemma Cipher.make_eq_ok {ctA ptA : List Char} {c : Cipher}
    (h : Cipher.make ctA ptA = .ok c) :
    ptA.length = ctA.length ∧ ptA.toFinset = ctA.toFinset ∧
      c = ⟨ptA, ctA, ptA.map (subChar ctA ptA)⟩ := by
  by_cases h1 : ptA.length = ctA.length
  · by_cases h2 : ptA.toFinset = ctA.toFinset
    · have hmem : ∀ x ∈ ptA, x ∈ ctA := by
        intro x hx
        have := List.mem_toFinset.mpr hx
        rw [h2] at this
        exact List.mem_toFinset.mp this
      have hinv : genInverse ptA ctA = .ok (ptA.map (subChar ctA ptA)) :=
        genInverseLoop_eq_map (le_of_eq h1.symm) ptA hmem
      rw [Cipher.make, if_neg (by simp [h1]), if_neg (by simp [h2]), hinv] at h
      exact ⟨h1, h2, (Except.ok.injEq _ _ ▸ h.symm :)⟩
    · rw [Cipher.make, if_neg (by simp [h1]), if_pos h2] at h
      exact absurd h (by simp)
  · rw [Cipher.make, if_pos h1] at h
    exact absurd h (by simp)

lemma Cipher.make_of_perm {ctA ptA : List Char} (h : ctA.Perm ptA) :
    Cipher.make ctA ptA = .ok ⟨ptA, ctA, ptA.map (subChar ctA ptA)⟩ := by
  have h1 : ptA.length = ctA.length := h.length_eq.symm
  have h2 : ptA.toFinset = ctA.toFinset :=
    (List.toFinset_eq_iff_perm_dedup.mpr h.dedup).symm
  have hmem : ∀ x ∈ ptA, x ∈ ctA := fun x hx => h.mem_iff.mpr hx
  have hinv : genInverse ptA ctA = .ok (ptA.map (subChar ctA ptA)) :=
    genInverseLoop_eq_map (le_of_eq h1.symm) ptA hmem
  rw [Cipher.make, if_neg (by simp [h1]), if_neg (by simp [h2]), hinv]

lemma listGetD_eq_get {l : List Char} {i : Nat} (h : i < l.length) (d : Char) :
    l.getD i d = l.get ⟨i, h⟩ := by
  rw [List.getD_eq_getElem?_getD, List.getElem?_eq_getElem h, List.get_eq_getElem]
  rfl

lemma nodup_of_toFinset_eq {l₁ l₂ : List Char} (h₁ : l₁.Nodup)
    (hlen : l₁.length = l₂.length) (hfs : l₁.toFinset = l₂.toFinset) : l₂.Nodup := by
  have hc : l₂.toFinset.card = l₂.dedup.length := List.card_toFinset l₂
  have hd : l₂.dedup.length = l₂.length := by
    rw [← hc, ← hfs, List.toFinset_card_of_nodup h₁, hlen]
  exact List.dedup_eq_self.mp ((List.dedup_sublist l₂).eq_of_length hd)

lemma toFinset_card_lt_of_not_nodup {l : List Char} (h : ¬ l.Nodup) :
    l.toFinset.card < l.length := by
  have hc : l.toFinset.card = l.dedup.length := List.card_toFinset l
  rcases lt_or_eq_of_le (List.dedup_sublist l).length_le with hlt | heq
  · rw [hc]; exact hlt
  · exact absurd (List.dedup_eq_self.mp ((List.dedup_sublist l).eq_of_length heq)) h

lemma subChar_decrypt_eq {pt ct : List Char} {y : Char} (hy : y ∈ pt) :
    subChar pt (pt.map (subChar ct pt)) y = subChar ct pt y := by
  have hj : pt.indexOf y < pt.length := List.indexOf_lt_length.mpr hy
  have hj' : pt.indexOf y < (pt.map (subChar ct pt)).length := by
    rw [List.length_map]; exact hj
  rw [subChar, if_pos hy, listGetD_eq_get hj', List.get_map]
  exact congrArg (subChar ct pt) (List.indexOf_get hj)

lemma subChar_enc_dec {pt ct : List Char} (hnd : pt.Nodup)
    (hlen : pt.length = ct.length) (hfs : pt.toFinset = ct.toFinset) (x : Char) :
    subChar pt (pt.map (subChar ct pt)) (subChar pt ct x) = x := by
  have hmem : ∀ z : Char, z ∈ pt ↔ z ∈ ct := by
    intro z
    rw [← List.mem_toFinset, hfs, List.mem_toFinset]
  have hndct : ct.Nodup := nodup_of_toFinset_eq hnd hlen hfs
  by_cases hx : x ∈ pt
  · have hi : pt.indexOf x < pt.length := List.indexOf_lt_length.mpr hx
    have hi' : pt.indexOf x < ct.length := hlen ▸ hi
    have henc : subChar pt ct x = ct.get ⟨pt.indexOf x, hi'⟩ := subChar_of_mem hx hi'
    have hyct : ct.get ⟨pt.indexOf x, hi'⟩ ∈ ct := List.get_mem _ _ _
    have hypt : ct.get ⟨pt.indexOf x, hi'⟩ ∈ pt := (hmem _).mpr hyct
    have hidx : ct.indexOf (ct.get ⟨pt.indexOf x, hi'⟩) = pt.indexOf x := by
      simpa using List.get_indexOf hndct ⟨pt.indexOf x, hi'⟩
    rw [henc, subChar_decrypt_eq hypt, subChar, if_pos hyct, hidx,
      listGetD_eq_get hi]
    exact List.indexOf_get hi
  · rw [subChar_of_not_mem hx, subChar_of_not_mem hx]

lemma subChar_dec_enc {pt ct : List Char} (hnd : pt.Nodup)
    (hlen : pt.length = ct.length) (hfs : pt.toFinset = ct.toFinset) (y : Char) :
    subChar pt ct (subChar pt (pt.map (subChar ct pt)) y) = y := by
  have hmem : ∀ z : Char, z ∈ pt ↔ z ∈ ct := by
    intro z
    rw [← List.mem_toFinset, hfs, List.mem_toFinset]
  by_cases hy : y ∈ pt
  · have hyct : y ∈ ct := (hmem y).mp hy
    have hm : ct.indexOf y < ct.length := List.indexOf_lt_length.mpr hyct
    have hm' : ct.indexOf y < pt.length := hlen ▸ hm
    have hdec : subChar ct pt y = pt.get ⟨ct.indexOf y, hm'⟩ := subChar_of_mem hyct hm'
    have hzpt : pt.get ⟨ct.indexOf y, hm'⟩ ∈ pt := List.get_mem _ _ _
    have hidx : pt.indexOf (pt.get ⟨ct.indexOf y, hm'⟩) = ct.indexOf y := by
      simpa using List.get_indexOf hnd ⟨ct.indexOf y, hm'⟩
    rw [subChar_decrypt_eq hy, hdec, subChar, if_pos hzpt, hidx,
      listGetD_eq_get hm]
    exact List.indexOf_get hm
  · rw [subChar_of_not_mem hy, subChar_of_not_mem hy]

lemma genKeywordLoop_cons_mem {working : List Char} {c : Char} (h : c ∈ working)
    (acc rest : List Char) :
    genKeywordLoop working acc (c :: rest) =
      genKeywordLoop (working.erase c) (acc ++ [c]) rest := by
  have hlt : working.indexOf c < working.length := List.indexOf_lt_length.mpr h
  simp only [genKeywordLoop, pyListIndex_of_mem h, pyPop, List.get?_eq_get hlt]
  rw [List.indexOf_get hlt, List.eraseIdx_indexOf_eq_erase]

lemma genKeywordLoop_cons_skip {working acc : List Char} {c : Char}
    (hw : c ∉ working) (ha : c ∈ acc) (rest : List Char) :
    genKeywordLoop working acc (c :: rest) = genKeywordLoop working acc rest := by
  simp only [genKeywordLoop, pyListIndex_of_not_mem hw, if_pos ha]

lemma genKeywordLoop_cons_err {working acc : List Char} {c : Char}
    (hw : c ∉ working) (ha : c ∉ acc) (rest : List Char) :
    genKeywordLoop working acc (c :: rest) =
      .error (.valueError
        ("Keyword contains character not contained in the alphabet: " ++ String.mk [c])) := by
  simp only [genKeywordLoop, pyListIndex_of_not_mem hw, if_neg ha]

lemma move_perm {working : List Char} {c : Char} (acc : List Char) (hw : c ∈ working) :
    ((acc ++ [c]) ++ working.erase c).Perm (acc ++ working) := by
  have h1 : working.Perm (c :: working.erase c) := List.perm_cons_erase hw
  have h2 : (acc ++ [c]) ++ working.erase c = acc ++ (c :: working.erase c) := by
    rw [List.append_assoc]
    rfl
  rw [h2]
  exact List.Perm.append_left acc h1.symm

lemma genKeywordLoop_perm :
    ∀ (key working acc r : List Char), genKeywordLoop working acc key = .ok r →
      r.Perm (acc ++ working)
  | [], working, acc, r, h => by
    rw [genKeywordLoop] at h
    cases h
    exact List.Perm.refl _
  | c :: rest, working, acc, r, h => by
    by_cases hw : c ∈ working
    · rw [genKeywordLoop_cons_mem hw] at h
      exact (genKeywordLoop_perm rest (working.erase c) (acc ++ [c]) r h).trans
        (move_perm acc hw)
    · by_cases ha : c ∈ acc
      · rw [genKeywordLoop_cons_skip hw ha] at h
        exact genKeywordLoop_perm rest working acc r h
      · rw [genKeywordLoop_cons_err hw ha] at h
        exact absurd h (by simp)

lemma genKeywordLoop_ok_of_mem :
    ∀ (key working acc : List Char), (∀ c ∈ key, c ∈ acc ++ working) →
      ∃ r, genKeywordLoop working acc key = .ok r
  | [], working, acc, _ => ⟨acc ++ working, rfl⟩
  | c :: rest, working, acc, h => by
    have hc : c ∈ acc ++ working := h c (List.mem_cons_self c rest)
    by_cases hw : c ∈ working
    · rw [genKeywordLoop_cons_mem hw]
      refine genKeywordLoop_ok_of_mem rest (working.erase c) (acc ++ [c]) ?_
      intro x hx
      exact ((move_perm acc hw).symm.mem_iff).mp (h x (List.mem_cons_of_mem c hx))
    · have ha : c ∈ acc := by
        rcases List.mem_append.mp hc with h1 | h2
        · exact h1
        · exact absurd h2 hw
      rw [genKeywordLoop_cons_skip hw ha]
      exact genKeywordLoop_ok_of_mem rest working acc
        (fun x hx => h x (List.mem_cons_of_mem c hx))

lemma genKeywordLoop_eq_spec (A : List Char) :
    ∀ (key working acc : List Char), (acc ++ working).Perm A →
      genKeywordLoop working acc key = reorderByKeySpecLoop A working acc key
  | [], _, _, _ => rfl
  | c :: rest, working, acc, hperm => by
    by_cases hw : c ∈ working
    · rw [genKeywordLoop_cons_mem hw, reorderByKeySpecLoop, if_pos hw]
      exact genKeywordLoop_eq_spec A rest (working.erase c) (acc ++ [c])
        ((move_perm acc hw).trans hperm)
    · have hiff : c ∈ acc ↔ c ∈ A := by
        constructor
        · intro ha
          exact hperm.subset (List.mem_append.mpr (Or.inl ha))
        · intro hA
          rcases List.mem_append.mp (hperm.symm.subset hA) with h1 | h2
          · exact h1
          · exact absurd h2 hw
      by_cases ha : c ∈ acc
      · rw [genKeywordLoop_cons_skip hw ha, reorderByKeySpecLoop, if_neg hw,
          if_pos (hiff.mp ha)]
        exact genKeywordLoop_eq_spec A rest working acc hperm
      · rw [genKeywordLoop_cons_err hw ha, reorderByKeySpecLoop, if_neg hw,
          if_neg (fun hA => ha (hiff.mpr hA))]

lemma exceptBind_ok {α β : Type} (a : α) (f : α → Except PyError β) :
    (Except.ok a : Except PyError α).bind f = f a := rfl

/-! ## Claims -/

/-- Claim C1 is false as stated: the constructor also accepts alphabet pairs
containing repeated characters (here plaintext `aab`, ciphertext `aba`),
and for such a pair the round trip fails: `decrypt (encrypt "b") = "a"`. -/
theorem claim_C1_counterexample :
    Cipher.make "aba".toList "aab".toList =
      .ok ⟨"aab".toList, "aba".toList, "aaa".toList⟩ ∧
    (Cipher.make "aba".toList "aab".toList).bind
      (fun c => (c.encrypt "b".toList).bind (fun e => c.decrypt e)) = .ok "a".toList ∧
    "a".toList ≠ "b".toList :=
  ⟨rfl, rfl, by decide⟩

/-- Claim C1 (amended): for every plaintext/ciphertext alphabet pair that is
duplicate-free and accepted by the Permutation Cipher constructor, and every
string `s` (including the empty string and strings with characters outside
the alphabet), `decrypt (encrypt s) = s`. -/
theorem claim_C1 :
    ∀ (ctA ptA : List Char) (c : Cipher), ptA.Nodup → ctA.Nodup →
      Cipher.make ctA ptA = .ok c →
      ∀ s : List Char, (c.encrypt s).bind c.decrypt = .ok s := by
  intro ctA ptA c hndp hndc hmk s
  obtain ⟨hlen, hfs, hc⟩ := Cipher.make_eq_ok hmk
  subst hc
  have h1 : Cipher.encrypt ⟨ptA, ctA, ptA.map (subChar ctA ptA)⟩ s =
      .ok (s.map (subChar ptA ctA)) :=
    applyMappingLoop_eq_map (le_of_eq hlen) s
  rw [h1, exceptBind_ok]
  have h2 : Cipher.decrypt ⟨ptA, ctA, ptA.map (subChar ctA ptA)⟩
      (s.map (subChar ptA ctA)) =
      .ok ((s.map (subChar ptA ctA)).map
        (subChar ptA (ptA.map (subChar ctA ptA)))) :=
    applyMappingLoop_eq_map (by rw [List.length_map]) _
  rw [h2, List.map_map]
  have hpt : ∀ x ∈ s, (subChar ptA (ptA.map (subChar ctA ptA)) ∘ subChar ptA ctA) x = id x :=
    fun x _ => subChar_enc_dec hndp hlen hfs x
  rw [List.map_congr_left hpt, List.map_id]

/-- Claim C1 witness at the cipher with plaintext `abc`, ciphertext `bca`
and message `xaby` (which contains `x` and `y`, outside the alphabet). -/
theorem claim_C1_witness :
    "abc".toList.Nodup ∧ "bca".toList.Nodup ∧
    Cipher.make "bca".toList "abc".toList =
      .ok ⟨"abc".toList, "bca".toList, "cab".toList⟩ ∧
    ((⟨"abc".toList, "bca".toList, "cab".toList⟩ : Cipher).encrypt "xaby".toList).bind
      (⟨"abc".toList, "bca".toList, "cab".toList⟩ : Cipher).decrypt = .ok "xaby".toList :=
  ⟨by decide, by decide, rfl,
    claim_C1 "bca".toList "abc".toList ⟨"abc".toList, "bca".toList, "cab".toList⟩
      (by decide) (by decide) rfl "xaby".toList⟩

/-- Claim C2 is false as stated: with base alphabet `0123456789`, key
`5158414` and shift 1, the combined builder with `shiftFirst = false`
produces a cipher whose plaintext alphabet is the keyed intermediate
`5184023679`, not the original base alphabet `0123456789`. -/
theorem claim_C2_counterexample :
    (getCombinedCipher "5158414".toList 1 (some "0123456789".toList) false).map
      Cipher.plaintextList = .ok "5184023679".toList ∧
    "5184023679".toList ≠ "0123456789".toList :=
  ⟨rfl, by decide⟩

/-- Claim C2 (amended): with `shiftFirst = false` the combined builder
constructs a cipher whose plaintext alphabet is the key-reordered base
alphabet (the intermediate), not the original base, and whose ciphertext
alphabet is that intermediate rotated by the shift amount. -/
theorem claim_C2 :
    ∀ (key : List Char) (shiftAmount : Int) (base inter : List Char) (c : Cipher),
      genCaseHandledAlphabet base key = .ok inter →
      getCombinedCipher key shiftAmount (some base) false = .ok c →
      c.plaintextList = inter ∧
        genShiftedAlphabet inter shiftAmount = .ok c.ciphertextList := by
  intro key shiftAmount base inter c hch hcc
  have hstep : getCombinedCipher key shiftAmount (some base) false =
      (match genCaseHandledAlphabet base key with
        | .ok keyed => ShiftedCipher.make shiftAmount (some keyed)
        | .error e => .error e) := rfl
  rw [hstep, hch] at hcc
  have hcc2 : ShiftedCipher.make shiftAmount (some inter) = .ok c := hcc
  have hstep2 : ShiftedCipher.make shiftAmount (some inter) =
      (match genShiftedAlphabet inter shiftAmount with
        | .ok cta => Cipher.make cta inter
        | .error e => .error e) := rfl
  rw [hstep2] at hcc2
  cases heq : genShiftedAlphabet inter shiftAmount with
  | error e =>
    rw [heq] at hcc2
    exact Except.noConfusion
      (show (Except.error e : Except PyError Cipher) = .ok c from hcc2)
  | ok cta =>
    rw [heq] at hcc2
    have hmk : Cipher.make cta inter = .ok c := hcc2
    obtain ⟨_, _, hc⟩ := Cipher.make_eq_ok hmk
    subst hc
    exact ⟨rfl, rfl⟩

/-- Claim C2 witness at key `5158414`, shift 1, base `0123456789`. -/
theorem claim_C2_witness :
    (⟨"5184023679".toList, "1840236795".toList, "9518402367".toList⟩ : Cipher).plaintextList
        = "5184023679".toList ∧
    genShiftedAlphabet "5184023679".toList 1 =
      .ok (⟨"5184023679".toList, "1840236795".toList,
        "9518402367".toList⟩ : Cipher).ciphertextList :=
  claim_C2 "5158414".toList 1 "0123456789".toList "5184023679".toList
    ⟨"5184023679".toList, "1840236795".toList, "9518402367".toList⟩ rfl rfl

/-- Claim C3 is false as stated: both alphabets here contain a repeated
character, yet construction succeeds because the length and set checks
pass; distinctness itself is never checked. -/
theorem claim_C3_counterexample :
    ¬ "aba".toList.Nodup ∧ ¬ "aab".toList.Nodup ∧
    Cipher.make "aab".toList "aba".toList =
      .ok ⟨"aba".toList, "aab".toList, "aaa".toList⟩ :=
  ⟨by decide, by decide, rfl⟩

/-- Claim C3 (amended): duplicate characters are rejected only indirectly:
when exactly one of the two alphabets contains a repeated character the
constructor fails with `InvalidArgument` (through the length or set-equality
check), but a pair in which both alphabets repeat characters can pass both
checks and construct successfully. -/
theorem claim_C3 :
    ∀ ctA ptA : List Char,
      (ptA.Nodup ∧ ¬ ctA.Nodup) ∨ (¬ ptA.Nodup ∧ ctA.Nodup) →
      isInvalidArg (Cipher.make ctA ptA) = true := by
  intro ctA ptA h
  by_cases hlen : ptA.length = ctA.length
  · have hne : ptA.toFinset ≠ ctA.toFinset := by
      intro hfs
      rcases h with ⟨hp, hc⟩ | ⟨hp, hc⟩
      · have h1 : ptA.toFinset.card = ptA.length := List.toFinset_card_of_nodup hp
        have h2 : ctA.toFinset.card < ctA.length := toFinset_card_lt_of_not_nodup hc
        rw [hfs] at h1
        omega
      · have h1 : ctA.toFinset.card = ctA.length := List.toFinset_card_of_nodup hc
        have h2 : ptA.toFinset.card < ptA.length := toFinset_card_lt_of_not_nodup hp
        rw [hfs] at h2
        omega
    rw [Cipher.make, if_neg (by simp [hlen]), if_pos hne]
    rfl
  · rw [Cipher.make, if_pos hlen]
    rfl

/-- Claim C3 witness: plaintext `aab` repeats `a` while ciphertext `abc`
is duplicate-free, and construction fails with `InvalidArgument`. -/
theorem claim_C3_witness :
    isInvalidArg (Cipher.make "abc".toList "aab".toList) = true :=
  claim_C3 "abc".toList "aab".toList (Or.inr ⟨by decide, by decide⟩)

/-- Claim C4 is false as stated only in the error kind: shifting an empty
alphabet fails with `ZeroDivisionError` (from the modulo), which is not the
`InvalidArgument` (`ValueError`) kind the claim names. -/
theorem claim_C4_counterexample :
    genShiftedAlphabet ([] : List Char) 0 = .error PyError.zeroDivisionError ∧
    isInvalidArg (genShiftedAlphabet ([] : List Char) 0) = false :=
  ⟨rfl, rfl⟩

/-- Claim C4 (amended): shifting an empty alphabet fails with a
`ZeroDivisionError` (not `InvalidArgument`); otherwise the alphabet is
rotated left by `((k % length) + length) % length` positions, so negative
amounts normalize into `[0, length)`. -/
theorem claim_C4 :
    ∀ (A : List Char) (k : Int),
      (A.length = 0 → genShiftedAlphabet A k = .error PyError.zeroDivisionError) ∧
      (A.length ≠ 0 →
        genShiftedAlphabet A k =
          .ok (A.drop ((k % (A.length : Int) + (A.length : Int)) % (A.length : Int)).toNat ++
            A.take ((k % (A.length : Int) + (A.length : Int)) % (A.length : Int)).toNat)) := by
  intro A k
  constructor
  · intro h
    rw [genShiftedAlphabet, if_pos h]
  · intro h
    have hmod : (k % (A.length : Int) + (A.length : Int)) % (A.length : Int) =
        k % (A.length : Int) := by
      rw [Int.add_emod_self, Int.emod_emod_of_dvd _ dvd_rfl]
    rw [genShiftedAlphabet, if_neg h, hmod]

/-- Claim C4 witness: shifting `abc` by `-1` rotates by `2`, giving `cab`. -/
theorem claim_C4_witness :
    genShiftedAlphabet "abc".toList (-1) = .ok "cab".toList := by
  have h := (claim_C4 "abc".toList (-1)).2 (by decide)
  rw [h]
  rfl

/-- Claim C5: construction fails with `InvalidArgument` when the lengths
differ, fails with `InvalidArgument` when the alphabets are not set-equal,
and succeeds whenever the ciphertext alphabet is a permutation of the
plaintext alphabet. -/
theorem claim_C5 :
    ∀ ctA ptA : List Char,
      (ptA.length ≠ ctA.length → isInvalidArg (Cipher.make ctA ptA) = true) ∧
      (ptA.toFinset ≠ ctA.toFinset → isInvalidArg (Cipher.make ctA ptA) = true) ∧
      (ctA.Perm ptA → ∃ c : Cipher, Cipher.make ctA ptA = .ok c) := by
  intro ctA ptA
  refine ⟨?_, ?_, ?_⟩
  · intro h
    rw [Cipher.make, if_pos h]
    rfl
  · intro h
    by_cases hlen : ptA.length = ctA.length
    · rw [Cipher.make, if_neg (by simp [hlen]), if_pos h]
      rfl
    · rw [Cipher.make, if_pos hlen]
      rfl
  · intro h
    exact ⟨_, Cipher.make_of_perm h⟩

/-- Claim C5 witness: a length mismatch fails, a set mismatch fails, and a
genuine permutation constructs successfully. -/
theorem claim_C5_witness :
    isInvalidArg (Cipher.make "ab".toList "abc".toList) = true ∧
    isInvalidArg (Cipher.make "abd".toList "abc".toList) = true ∧
    ∃ c : Cipher, Cipher.make "bca".toList "abc".toList = .ok c :=
  ⟨(claim_C5 "ab".toList "abc".toList).1 (by decide),
    (claim_C5 "abd".toList "abc".toList).2.1 (by decide),
    (claim_C5 "bca".toList "abc".toList).2.2 (by decide)⟩

/-- Claim C6: the keyword reordering of the source behaves exactly as the
spec describes it (first unconsumed occurrence moved to the front, silent
skip of key characters consumed by an earlier duplicate, `InvalidArgument`
naming a key character absent from the alphabet, remainder appended in
original order), and the worked example of the spec holds. -/
theorem claim_C6 :
    (∀ alphabet key : List Char,
      genKeywordAlphabet alphabet key = reorderByKeySpec alphabet key) ∧
    genKeywordAlphabet "0123456789".toList "5158414".toList =
      .ok "5184023679".toList := by
  constructor
  · intro alphabet key
    exact genKeywordLoop_eq_spec alphabet key alphabet []
      (by rw [List.nil_append])
  · rfl

/-- Claim C7: over the full-letters alphabet the keyed builder splits the
key case-insensitively, reorders each half and concatenates them in
(lowercase, uppercase) order; over any other alphabet the key applies
directly. -/
theorem claim_C7 :
    (∀ key lowerHalf upperHalf : List Char,
      genKeywordAlphabet asciiLowercase (key.map Char.toLower) = .ok lowerHalf →
      genKeywordAlphabet asciiUppercase (key.map Char.toUpper) = .ok upperHalf →
      key ≠ [] →
      ∃ c : Cipher, KeyedCipher.make key (some asciiLetters) = .ok c ∧
        c.ciphertextList = lowerHalf ++ upperHalf ∧
        c.plaintextList = asciiLetters) ∧
    (∀ pa key : List Char, pa ≠ asciiLetters →
      genCaseHandledAlphabet pa key = genKeywordAlphabet pa key) := by
  constructor
  · intro key lowerHalf upperHalf hlow hup hne
    have hperml : lowerHalf.Perm asciiLowercase := by
      have h := genKeywordLoop_perm (key.map Char.toLower) asciiLowercase [] lowerHalf hlow
      simpa using h
    have hpermu : upperHalf.Perm asciiUppercase := by
      have h := genKeywordLoop_perm (key.map Char.toUpper) asciiUppercase [] upperHalf hup
      simpa using h
    have hperm : (lowerHalf ++ upperHalf).Perm asciiLetters := hperml.append hpermu
    have hch : genCaseHandledAlphabet asciiLetters key = .ok (lowerHalf ++ upperHalf) := by
      rw [genCaseHandledAlphabet, if_pos rfl, hlow, hup]
    have hkl : ¬ key.length = 0 := fun h0 => hne (List.length_eq_zero.mp h0)
    have hstep : KeyedCipher.make key (some asciiLetters) =
        (if key.length = 0 then
          .error (.valueError "The keyword has to be a non-null string.")
        else
          match genCaseHandledAlphabet asciiLetters key with
          | .ok cta => Cipher.make cta asciiLetters
          | .error e => .error e) := rfl
    refine ⟨⟨asciiLetters, lowerHalf ++ upperHalf,
      asciiLetters.map (subChar (lowerHalf ++ upperHalf) asciiLetters)⟩, ?_, rfl, rfl⟩
    rw [hstep, if_neg hkl, hch]
    exact Cipher.make_of_perm hperm
  · intro pa key h
    rw [genCaseHandledAlphabet, if_neg h]

/-- Claim C7 witness at key `Key` (the spec test-case key): the lowercase
half is reordered with `key`, the uppercase half with `KEY`, and the built
cipher pairs their concatenation with the full-letters alphabet. -/
theorem claim_C7_witness :
    genKeywordAlphabet asciiLowercase ("Key".toList.map Char.toLower) =
      .ok "keyabcdfghijlmnopqrstuvwxz".toList ∧
    genKeywordAlphabet asciiUppercase ("Key".toList.map Char.toUpper) =
      .ok "KEYABCDFGHIJLMNOPQRSTUVWXZ".toList ∧
    ∃ c : Cipher, KeyedCipher.make "Key".toList (some asciiLetters) = .ok c ∧
      c.ciphertextList =
        "keyabcdfghijlmnopqrstuvwxz".toList ++ "KEYABCDFGHIJLMNOPQRSTUVWXZ".toList ∧
      c.plaintextList = asciiLetters :=
  ⟨rfl, rfl,
    claim_C7.1 "Key".toList "keyabcdfghijlmnopqrstuvwxz".toList
      "KEYABCDFGHIJLMNOPQRSTUVWXZ".toList rfl rfl (by decide)⟩

/-- Claim C8: when every key character occurs in the alphabet, the keyword
reordering succeeds and returns a permutation of the alphabet: same length
and same multiset of characters. -/
theorem claim_C8 :
    ∀ A key : List Char, (∀ c ∈ key, c ∈ A) →
      ∃ r : List Char, genKeywordAlphabet A key = .ok r ∧
        r.length = A.length ∧ (r : Multiset Char) = (A : Multiset Char) := by
  intro A key h
  obtain ⟨r, hr⟩ := genKeywordLoop_ok_of_mem key A [] (by simpa using h)
  have hp : r.Perm A := by
    have h2 := genKeywordLoop_perm key A [] r hr
    simpa using h2
  exact ⟨r, hr, hp.length_eq, Multiset.coe_eq_coe.mpr hp⟩

/-- Claim C8 witness at alphabet `abc` and key `ba`. -/
theorem claim_C8_witness :
    (∀ c ∈ "ba".toList, c ∈ "abc".toList) ∧
    ∃ r : List Char, genKeywordAlphabet "abc".toList "ba".toList = .ok r ∧
      r.length = "abc".toList.length ∧
      (r : Multiset Char) = ("abc".toList : Multiset Char) :=
  ⟨by decide, claim_C8 "abc".toList "ba".toList (by decide)⟩

/-- Claim C9: a constructed cipher encrypts and decrypts every string
without error — both methods return the per-character substitution map of
the whole input — and characters outside the plaintext alphabet pass
through unchanged. -/
theorem claim_C9 :
    ∀ (ctA ptA : List Char) (c : Cipher),
      Cipher.make ctA ptA = .ok c →
      ∀ s : List Char,
        c.encrypt s = .ok (s.map (subChar c.plaintextList c.ciphertextList)) ∧
        c.decrypt s = .ok (s.map (subChar c.plaintextList c.inverseList)) ∧
        (∀ x : Char, x ∉ c.plaintextList →
          subChar c.plaintextList c.ciphertextList x = x ∧
          subChar c.plaintextList c.inverseList x = x) := by
  intro ctA ptA c hmk s
  obtain ⟨hlen, hfs, hc⟩ := Cipher.make_eq_ok hmk
  subst hc
  refine ⟨applyMappingLoop_eq_map (le_of_eq hlen) s,
    applyMappingLoop_eq_map (by rw [List.length_map]) s, ?_⟩
  intro x hx
  exact ⟨subChar_of_not_mem hx, subChar_of_not_mem hx⟩

/-- Claim C9 witness at the cipher with plaintext `abc`, ciphertext `bca`
and the message `x!a`, whose `x` and `!` are outside the alphabet. -/
theorem claim_C9_witness :
    Cipher.make "bca".toList "abc".toList =
      .ok ⟨"abc".toList, "bca".toList, "cab".toList⟩ ∧
    (⟨"abc".toList, "bca".toList, "cab".toList⟩ : Cipher).encrypt "x!a".toList =
      .ok ("x!a".toList.map (subChar "abc".toList "bca".toList)) ∧
    "x!a".toList.map (subChar "abc".toList "bca".toList) = "x!b".toList := by
  refine ⟨rfl, ?_, by decide⟩
  exact (claim_C9 "bca".toList "abc".toList
    ⟨"abc".toList, "bca".toList, "cab".toList⟩ rfl "x!a".toList).1

/-- Claim C10: for a cipher built from duplicate-free alphabets, the round
trip also holds in the opposite direction: `encrypt (decrypt s) = s` for
every string, including characters outside the alphabet. -/
theorem claim_C10 :
    ∀ (ctA ptA : List Char) (c : Cipher), ptA.Nodup → ctA.Nodup →
      Cipher.make ctA ptA = .ok c →
      ∀ s : List Char, (c.decrypt s).bind c.encrypt = .ok s := by
  intro ctA ptA c hndp hndc hmk s
  obtain ⟨hlen, hfs, hc⟩ := Cipher.make_eq_ok hmk
  subst hc
  have h1 : Cipher.decrypt ⟨ptA, ctA, ptA.map (subChar ctA ptA)⟩ s =
      .ok (s.map (subChar ptA (ptA.map (subChar ctA ptA)))) :=
    applyMappingLoop_eq_map (by rw [List.length_map]) s
  rw [h1, exceptBind_ok]
  have h2 : Cipher.encrypt ⟨ptA, ctA, ptA.map (subChar ctA ptA)⟩
      (s.map (subChar ptA (ptA.map (subChar ctA ptA)))) =
      .ok ((s.map (subChar ptA (ptA.map (subChar ctA ptA)))).map (subChar ptA ctA)) :=
    applyMappingLoop_eq_map (le_of_eq hlen) _
  rw [h2, List.map_map]
  have hpt : ∀ y ∈ s, (subChar ptA ctA ∘ subChar ptA (ptA.map (subChar ctA ptA))) y = id y :=
    fun y _ => subChar_dec_enc hndp hlen hfs y
  rw [List.map_congr_left hpt, List.map_id]

/-- Claim C10 witness at the cipher with plaintext `abc`, ciphertext `bca`
and message `xaby`. -/
theorem claim_C10_witness :
    "abc".toList.Nodup ∧ "bca".toList.Nodup ∧
    Cipher.make "bca".toList "abc".toList =
      .ok ⟨"abc".toList, "bca".toList, "cab".toList⟩ ∧
    ((⟨"abc".toList, "bca".toList, "cab".toList⟩ : Cipher).decrypt "xaby".toList).bind
      (⟨"abc".toList, "bca".toList, "cab".toList⟩ : Cipher).encrypt = .ok "xaby".toList :=
  ⟨by decide, by decide, rfl,
    claim_C10 "bca".toList "abc".toList ⟨"abc".toList, "bca".toList, "cab".toList⟩
      (by decide) (by decide) rfl "xaby".toList⟩
